import Mathlib

/-!
Shallow embedding of the WEBRCV offline-mirror downloader
(src/webrcv.js; the near-duplicate variants live in src/download-site.js
and src/unnamed/part_000).  Strings are modelled as lists of characters,
and the JS string and regex operations the source uses are modelled by
the executable functions below.  Serialized URLs contain no line
terminators, which the models of the dot-blind regex pieces rely on.
-/

namespace Webrcv

/-- Model of JS `str.replace(pattern, repl)` with a plain-string pattern:
only the first (leftmost) occurrence is replaced. -/
def replaceFirst (pat repl : List Char) : List Char → List Char
  | [] => if pat.isEmpty then repl else []
  | c :: rest =>
    if pat.isPrefixOf (c :: rest) then repl ++ (c :: rest).drop pat.length
    else c :: replaceFirst pat repl rest

/-- Model of a JS global replace of a literal (regex-escaped) pattern:
after each replacement, scanning resumes after the consumed occurrence.
Every step consumes at least one character, so the input length serves as
fuel and keeps the recursion structural. -/
def replaceAllAux (pat repl : List Char) : Nat → List Char → List Char
  | _, [] => []
  | 0, s => s
  | fuel + 1, c :: rest =>
    if !pat.isEmpty && pat.isPrefixOf (c :: rest) then
      repl ++ replaceAllAux pat repl fuel (rest.drop (pat.length - 1))
    else c :: replaceAllAux pat repl fuel rest

def replaceAll (pat repl s : List Char) : List Char :=
  replaceAllAux pat repl s.length s

/-- Match for a pattern built from an UNESCAPED origin inside a regex: a
dot in the pattern is a regex wildcard matching any character except a
line terminator, while every other character of an http(s) origin
matches literally (the dot is the only regex metacharacter occurring in
such an origin). -/
def dotIsPrefixOf : List Char → List Char → Bool
  | [], _ => true
  | _ :: _, [] => false
  | p :: ps, c :: cs =>
    (p == c || (p == '.' && c != '\n' && c != '\r')) && dotIsPrefixOf ps cs

def replaceAllDotAux (pat repl : List Char) : Nat → List Char → List Char
  | _, [] => []
  | 0, s => s
  | fuel + 1, c :: rest =>
    if !pat.isEmpty && dotIsPrefixOf pat (c :: rest) then
      repl ++ replaceAllDotAux pat repl fuel (rest.drop (pat.length - 1))
    else c :: replaceAllDotAux pat repl fuel rest

def replaceAllDot (pat repl s : List Char) : List Char :=
  replaceAllDotAux pat repl s.length s

/-- Model of `.replace(/\?.*$/, "")` on a serialized URL (which contains
no line terminator): everything from the first question mark on is
removed. -/
def stripQuery (s : List Char) : List Char :=
  s.takeWhile (fun c => c ≠ '?')

/-- Model of `.replace(/^\//, "")`: at most one leading separator is
removed. -/
def stripLeadingSlash (s : List Char) : List Char :=
  match s with
  | [] => []
  | c :: rest => if c = '/' then rest else c :: rest

def endsWithSlash (s : List Char) : Bool :=
  s.getLast? == some '/'

def indexDoc : List Char := "index.html".toList

/-- The branch structure of `cleanURL` applied to the origin- and
query-stripped residue (src/webrcv.js lines 29-31). -/
def cleanPart (u : List Char) : List Char :=
  if u = [] ∨ u = ['/'] then indexDoc
  else if endsWithSlash u then stripLeadingSlash (u ++ indexDoc)
  else stripLeadingSlash u

/-- `cleanURL` from src/webrcv.js lines 27-32: drop the first occurrence
of the origin, drop the query, then map directory-style residues to the
index document and strip one leading separator. -/
def cleanURL (root url : List Char) : List Char :=
  cleanPart (stripQuery (replaceFirst root [] url))

/-- `rewriteHTML` from src/webrcv.js lines 43-49: the origin is removed
globally (that regex is built from the ESCAPED origin, hence a literal
match), then root-relative href/src/url references lose their leading
separator. -/
def rewriteHTML (root html : List Char) : List Char :=
  replaceAll ("url(\"/".toList) ("url(\"".toList)
    (replaceAll ("src=\"/".toList) ("src=\"".toList)
      (replaceAll ("href=\"/".toList) ("href=\"".toList)
        (replaceAll root [] html)))

/-- `rewriteCSS` from src/webrcv.js lines 51-56.  The first two patterns
are built from the UNESCAPED origin, so their dots are wildcards; the
third is escaped, hence literal.  None of the three patterns carries a
trailing separator after the origin. -/
def rewriteCSS (root css : List Char) : List Char :=
  replaceAll root []
    (replaceAllDot ("url(".toList ++ root) ("url(".toList)
      (replaceAllDot ("url(\"".toList ++ root) ("url(\"".toList) css))

def rootList : List Char := "https://site.example".toList

/-- Whether `pat` occurs as a contiguous block anywhere in the string. -/
def containsSeq (pat : List Char) : List Char → Bool
  | [] => pat.isEmpty
  | c :: rest => pat.isPrefixOf (c :: rest) || containsSeq pat rest

theorem isPrefixOf_append_self (l r : List Char) : l.isPrefixOf (l ++ r) = true := by
  induction l with
  | nil => simp [List.isPrefixOf]
  | cons a as ih => simp [List.isPrefixOf, ih]

theorem drop_length_append (l r : List Char) : (l ++ r).drop l.length = r := by
  induction l with
  | nil => rfl
  | cons a as ih => simp [ih]

/-- On an in-scope URL, the first occurrence of the origin is its prefix,
so `replace(ROOT, "")` strips exactly that prefix. -/
theorem replaceFirst_append (pat r : List Char) :
    replaceFirst pat [] (pat ++ r) = r := by
  cases pat with
  | nil =>
    cases r with
    | nil => rfl
    | cons c rest => simp [replaceFirst, List.isPrefixOf]
  | cons a as =>
    have hpre := isPrefixOf_append_self (a :: as) r
    simp only [List.cons_append] at hpre ⊢
    simp [replaceFirst, hpre, drop_length_append]

theorem replaceFirst_eq_self (pat repl s : List Char) (h : containsSeq pat s = false) :
    replaceFirst pat repl s = s := by
  induction s with
  | nil =>
    simp only [containsSeq] at h
    simp [replaceFirst, h]
  | cons c rest ih =>
    simp only [containsSeq, Bool.or_eq_false_iff] at h
    simp [replaceFirst, h.1, ih h.2]

theorem stripQuery_cons (c : Char) (s : List Char) (h : c ≠ '?') :
    stripQuery (c :: s) = c :: stripQuery s := by
  simp [stripQuery, List.takeWhile_cons, h]

theorem stripQuery_eq_self (s : List Char) (h : '?' ∉ s) : stripQuery s = s := by
  induction s with
  | nil => rfl
  | cons c rest ih =>
    have hc : c ≠ '?' := by
      intro hcq
      exact h (hcq ▸ List.mem_cons_self c rest)
    rw [stripQuery_cons c rest hc, ih (fun hm => h (List.mem_cons_of_mem _ hm))]

theorem cleanURL_append (root r : List Char) :
    cleanURL root (root ++ r) = cleanPart (stripQuery r) := by
  unfold cleanURL
  rw [replaceFirst_append]

theorem getLast?_cons_of_ne_nil (c : Char) (s : List Char) (h : s ≠ []) :
    (c :: s).getLast? = s.getLast? := by
  cases s with
  | nil => exact absurd rfl h
  | cons b bs => simp [List.getLast?_cons_cons]

theorem cleanPart_no_leading_sep (u : List Char)
    (h : ('/' :: '/' :: []).isPrefixOf u = false) :
    (cleanPart u).head? ≠ some '/' := by
  cases u with
  | nil => decide
  | cons c cs =>
    cases cs with
    | nil =>
      by_cases hc : c = '/'
      · subst hc; decide
      · simp [cleanPart, endsWithSlash, stripLeadingSlash, hc]
    | cons d ds =>
      by_cases hc : c = '/'
      · subst hc
        have hd : d ≠ '/' := by
          intro hdq
          subst hdq
          simp [List.isPrefixOf] at h
        have hne : ('/' :: d :: ds) ≠ ['/'] := by simp
        by_cases he : endsWithSlash ('/' :: d :: ds) = true
        · simp [cleanPart, hne, he, stripLeadingSlash, hd]
        · simp [cleanPart, hne, he, stripLeadingSlash, hd]
      · have hne1 : (c :: d :: ds) ≠ [] := by simp
        have hne2 : (c :: d :: ds) ≠ ['/'] := by simp [hc]
        by_cases he : endsWithSlash (c :: d :: ds) = true
        · simp [cleanPart, hne2, he, stripLeadingSlash, hc]
        · simp [cleanPart, hne2, he, stripLeadingSlash, hc]

/-- Claim C4 (amended): for every absolute URL in scope of the target
origin whose origin-stripped, query-stripped remainder does not begin
with two consecutive separators, the output of `cleanURL` never has a
leading path separator.  (`cleanURL` strips at most one leading
separator, so a remainder beginning with `//` keeps one — see the
counterexample.  Purity is immediate: the embedding is a function of the
URL and the origin only.) -/
theorem cleanURL_no_leading_sep (root r : List Char)
    (h : ('/' :: '/' :: []).isPrefixOf (stripQuery r) = false) :
    (cleanURL root (root ++ r)).head? ≠ some '/' := by
  rw [cleanURL_append]
  exact cleanPart_no_leading_sep _ h

theorem cleanURL_no_leading_sep_witness :
    ('/' :: '/' :: []).isPrefixOf (stripQuery ("/about".toList)) = false
    ∧ (cleanURL rootList (rootList ++ "/about".toList)).head? ≠ some '/' :=
  ⟨by decide, cleanURL_no_leading_sep rootList ("/about".toList) (by decide)⟩

/-- Claim C4, counterexample to the claim as stated: the in-scope URL
https://site.example//a is cleaned to the path "/a", which begins with a
path separator. -/
theorem cleanURL_leading_sep_cex :
    (cleanURL rootList ("https://site.example//a".toList)).head? = some '/' := by
  decide

theorem cleanPart_plain (u : List Char) (hne : u ≠ [])
    (hh : u.head? ≠ some '/') (hl : u.getLast? ≠ some '/') :
    cleanPart u = u := by
  cases u with
  | nil => exact absurd rfl hne
  | cons c cs =>
    have hc : c ≠ '/' := by
      intro hcq
      exact hh (by simp [hcq])
    have hne2 : (c :: cs) ≠ ['/'] := by simp [hc]
    have he : endsWithSlash (c :: cs) = false := by
      simp [endsWithSlash, hl]
    simp [cleanPart, hne2, he, stripLeadingSlash, hc]

/-- Claim C5 (amended): for every in-scope URL of the form
`origin ++ "/" ++ p` with `p` nonempty, not itself beginning with a
separator, free of query marks, not ending in a separator, and not
containing the origin as a substring, `cleanURL` strips exactly the
origin prefix and the single leading separator (yielding `p`), and
re-applying `cleanURL` to the produced relative path yields the same
path.  (Idempotence fails for remainders beginning with `//` — see the
counterexample.) -/
theorem cleanURL_strip_idem (root p : List Char)
    (hne : p ≠ [])
    (hh : p.head? ≠ some '/')
    (hq : '?' ∉ p)
    (hl : p.getLast? ≠ some '/')
    (hsub : containsSeq root p = false) :
    cleanURL root (root ++ '/' :: p) = p
    ∧ cleanURL root (cleanURL root (root ++ '/' :: p)) = cleanURL root (root ++ '/' :: p) := by
  have hq2 : '?' ∉ ('/' :: p) := by
    intro hm
    rcases List.mem_cons.mp hm with h1 | h1
    · exact absurd h1 (by decide)
    · exact hq h1
  have hstep : cleanURL root (root ++ '/' :: p) = p := by
    rw [cleanURL_append, stripQuery_eq_self _ hq2]
    have hne2 : ('/' :: p) ≠ ['/'] := by simp [hne]
    have he : endsWithSlash ('/' :: p) = false := by
      simp [endsWithSlash, getLast?_cons_of_ne_nil '/' p hne, hl]
    simp [cleanPart, hne2, he, stripLeadingSlash]
  refine ⟨hstep, ?_⟩
  rw [hstep]
  unfold cleanURL
  rw [replaceFirst_eq_self _ _ _ hsub, stripQuery_eq_self _ hq]
  rw [cleanPart_plain p hne hh hl]

theorem cleanURL_strip_idem_witness :
    cleanURL rootList (rootList ++ '/' :: ("about".toList)) = "about".toList
    ∧ cleanURL rootList (cleanURL rootList (rootList ++ '/' :: ("about".toList)))
      = cleanURL rootList (rootList ++ '/' :: ("about".toList)) :=
  cleanURL_strip_idem rootList ("about".toList)
    (by decide) (by decide) (by decide) (by decide) (by decide)

/-- Claim C5, counterexample to the claim as stated: the URL
https://site.example//blog has no query string and does not end in a
separator, yet `cleanURL` is not idempotent on its output: the URL
cleans to "/blog", and re-applying `cleanURL` gives "blog". -/
theorem cleanURL_idem_cex :
    cleanURL rootList (cleanURL rootList ("https://site.example//blog".toList))
      ≠ cleanURL rootList ("https://site.example//blog".toList) := by
  decide

theorem cleanPart_index (u : List Char)
    (h : u = [] ∨ u = ['/'] ∨ endsWithSlash u = true) :
    cleanPart u = stripLeadingSlash u ++ indexDoc := by
  rcases h with h | h | h
  · subst h; decide
  · subst h; decide
  · cases u with
    | nil => decide
    | cons c cs =>
      by_cases hone : (c :: cs) = ['/']
      · rw [hone]; decide
      · by_cases hc : c = '/'
        · subst hc
          simp [cleanPart, hone, h, stripLeadingSlash]
        · simp [cleanPart, hone, h, stripLeadingSlash, hc]

/-- Claim C6: for every in-scope URL whose origin- and query-stripped
remainder is empty, "/", or ends in "/", `cleanURL` produces exactly the
(separator-stripped) remainder with one single copy of "index.html"
appended — the index document is appended exactly once, never
doubled. -/
theorem cleanURL_index_once (root r : List Char)
    (h : stripQuery r = [] ∨ stripQuery r = ['/'] ∨ endsWithSlash (stripQuery r) = true) :
    cleanURL root (root ++ r) = stripLeadingSlash (stripQuery r) ++ indexDoc := by
  rw [cleanURL_append]
  exact cleanPart_index _ h

theorem cleanURL_index_once_witness :
    endsWithSlash (stripQuery ("/blog/".toList)) = true
    ∧ cleanURL rootList (rootList ++ "/blog/".toList)
      = stripLeadingSlash (stripQuery ("/blog/".toList)) ++ indexDoc :=
  ⟨by decide, cleanURL_index_once rootList ("/blog/".toList) (Or.inr (Or.inr (by decide)))⟩

/-- Claim C7: `rewriteHTML` on `<a href="https://site.example/about/">`
with target origin https://site.example yields `<a href="about/">`: it
contains `href="about/"`, no occurrence of the absolute origin remains,
and no rewritten reference keeps a leading separator. -/
theorem rewriteHTML_about :
    rewriteHTML rootList ("<a href=\"https://site.example/about/\">".toList)
      = "<a href=\"about/\">".toList
    ∧ containsSeq ("href=\"about/\"".toList)
        (rewriteHTML rootList ("<a href=\"https://site.example/about/\">".toList)) = true
    ∧ containsSeq rootList
        (rewriteHTML rootList ("<a href=\"https://site.example/about/\">".toList)) = false
    ∧ containsSeq ("href=\"/".toList)
        (rewriteHTML rootList ("<a href=\"https://site.example/about/\">".toList)) = false := by
  refine ⟨by decide, by decide, by decide, by decide⟩

/-- Claim C8 (code bug): `rewriteCSS` on
`background:url("https://site.example/img/a.png")` with target origin
https://site.example yields `background:url("/img/a.png")` — the origin
is removed and the quoting preserved, but a leading separator remains,
because the pattern the source builds from ROOT carries no trailing
separator (the hardcoded sibling variants in src/download-site.js and
src/unnamed/part_000 include it and produce the claimed output). -/
theorem rewriteCSS_keeps_separator :
    rewriteCSS rootList ("background:url(\"https://site.example/img/a.png\")".toList)
      = "background:url(\"/img/a.png\")".toList
    ∧ rewriteCSS rootList ("background:url(\"https://site.example/img/a.png\")".toList)
      ≠ "background:url(\"img/a.png\")".toList := by
  refine ⟨by decide, by decide⟩

/-! ### The network sniffer (src/webrcv.js lines 59-84)

A `response` event carries the exchange URL and a body accessor; `none`
models `res.body()` (or the subsequent `writeFile`) throwing, which the
source catches and swallows.  The `saving.has` / `saving.add` pair is
synchronous in the source — no await separates check and add — so it is
a single atomic step here, while the body fetch and the write happen
after the claim.  The claimed-path set `saving` is a separate piece of
state from the crawl frontier's `visited` set. -/

structure Exchange where
  url : List Char
  body : Option (List Char)
deriving DecidableEq

structure SnifferState where
  saving : List (List Char)
  writes : List (List Char × List Char)
deriving DecidableEq

def snifferInit : SnifferState := ⟨[], []⟩

/-- JS `Set.add`: append iff absent (JS sets iterate in insertion
order, which the crawler exploits when spreading the queue). -/
def setAdd (l : List (List Char)) (x : List Char) : List (List Char) :=
  if x ∈ l then l else l ++ [x]

def snifferPayload (root cleaned body : List Char) : List Char :=
  if (".css".toList).isSuffixOf cleaned then rewriteCSS root body else body

def sniffStep (root : List Char) (st : SnifferState) (ev : Exchange) : SnifferState :=
  if root.isPrefixOf ev.url then
    if cleanURL root ev.url ∈ st.saving then st
    else
      match ev.body with
      | none => { st with saving := setAdd st.saving (cleanURL root ev.url) }
      | some b =>
          { saving := setAdd st.saving (cleanURL root ev.url),
            writes := st.writes
              ++ [(cleanURL root ev.url, snifferPayload root (cleanURL root ev.url) b)] }
  else st

def sniffFold (root : List Char) (st : SnifferState) (evs : List Exchange) : SnifferState :=
  evs.foldl (sniffStep root) st

def sniffRun (root : List Char) (evs : List Exchange) : SnifferState :=
  sniffFold root snifferInit evs

/-- Number of stored artifacts at a given normalized path. -/
def countPath (p : List Char) : List (List Char × List Char) → Nat
  | [] => 0
  | w :: rest => (if w.1 = p then 1 else 0) + countPath p rest

theorem countPath_append (p : List Char) (l m : List (List Char × List Char)) :
    countPath p (l ++ m) = countPath p l + countPath p m := by
  induction l with
  | nil => simp [countPath]
  | cons w rest ih => simp [countPath, ih]; omega

theorem mem_setAdd (l : List (List Char)) (x y : List Char) :
    x ∈ setAdd l y ↔ x ∈ l ∨ x = y := by
  by_cases h : y ∈ l
  · simp only [setAdd, if_pos h]
    constructor
    · exact Or.inl
    · rintro (hx | rfl)
      · exact hx
      · exact h
  · simp only [setAdd, if_neg h]
    simp

theorem sniffStep_inv (root p : List Char) (st : SnifferState) (ev : Exchange)
    (h1 : countPath p st.writes ≤ 1)
    (h2 : p ∉ st.saving → countPath p st.writes = 0) :
    countPath p (sniffStep root st ev).writes ≤ 1
    ∧ (p ∉ (sniffStep root st ev).saving → countPath p (sniffStep root st ev).writes = 0) := by
  unfold sniffStep
  by_cases hs : root.isPrefixOf ev.url
  · rw [if_pos hs]
    by_cases hm : cleanURL root ev.url ∈ st.saving
    · rw [if_pos hm]; exact ⟨h1, h2⟩
    · rw [if_neg hm]
      cases hb : ev.body with
      | none =>
        exact ⟨h1, fun hp => h2 (fun hpin => hp ((mem_setAdd _ _ _).mpr (Or.inl hpin)))⟩
      | some b =>
        by_cases hpc : cleanURL root ev.url = p
        · have h0 : countPath p st.writes = 0 := h2 (by rw [hpc] at hm; exact hm)
          constructor
          · simp [countPath_append, countPath, hpc, h0]
          · intro hp
            exact absurd ((mem_setAdd _ _ _).mpr (Or.inr hpc.symm)) hp
        · constructor
          · simpa [countPath_append, countPath, hpc] using h1
          · intro hp
            have hout : p ∉ st.saving := fun hpin => hp ((mem_setAdd _ _ _).mpr (Or.inl hpin))
            simp [countPath_append, countPath, hpc, h2 hout]
  · rw [if_neg hs]; exact ⟨h1, h2⟩

theorem sniffFold_inv (root p : List Char) (evs : List Exchange) :
    ∀ st : SnifferState, countPath p st.writes ≤ 1 →
      (p ∉ st.saving → countPath p st.writes = 0) →
      countPath p (sniffFold root st evs).writes ≤ 1 := by
  induction evs with
  | nil => intro st h1 _; exact h1
  | cons ev rest ih =>
    intro st h1 h2
    have h := sniffStep_inv root p st ev h1 h2
    have := ih (sniffStep root st ev) h.1 h.2
    simpa [sniffFold, List.foldl_cons] using this

theorem sniffStep_claimed_skip (root : List Char) (st : SnifferState) (ev : Exchange)
    (hs : root.isPrefixOf ev.url = true) (hm : cleanURL root ev.url ∈ st.saving) :
    sniffStep root st ev = st := by
  unfold sniffStep
  rw [if_pos hs, if_pos hm]

theorem sniffFold_claimed_noop (root p : List Char) (st : SnifferState) (hp : p ∈ st.saving) :
    ∀ evs : List Exchange,
      (∀ x ∈ evs, root.isPrefixOf x.url = true ∧ cleanURL root x.url = p) →
      sniffFold root st evs = st := by
  intro evs
  induction evs with
  | nil => intro _; rfl
  | cons ev rest ih =>
    intro hall
    have hev := hall ev (List.mem_cons_self ev rest)
    have hskip : sniffStep root st ev = st :=
      sniffStep_claimed_skip root st ev hev.1 (by rw [hev.2]; exact hp)
    have := ih (fun x hx => hall x (List.mem_cons_of_mem _ hx))
    simpa [sniffFold, List.foldl_cons, hskip] using this

theorem sniffStep_claimed_keep (root p : List Char) (st : SnifferState) (ev : Exchange)
    (hp : p ∈ st.saving) :
    p ∈ (sniffStep root st ev).saving
    ∧ countPath p (sniffStep root st ev).writes = countPath p st.writes := by
  unfold sniffStep
  by_cases hs : root.isPrefixOf ev.url
  · rw [if_pos hs]
    by_cases hm : cleanURL root ev.url ∈ st.saving
    · rw [if_pos hm]; exact ⟨hp, rfl⟩
    · rw [if_neg hm]
      have hne : cleanURL root ev.url ≠ p := fun hc => hm (hc ▸ hp)
      cases hbe : ev.body with
      | none => exact ⟨(mem_setAdd _ _ _).mpr (Or.inl hp), rfl⟩
      | some b =>
        refine ⟨(mem_setAdd _ _ _).mpr (Or.inl hp), ?_⟩
        simp [countPath_append, countPath, hne]
  · rw [if_neg hs]; exact ⟨hp, rfl⟩

theorem sniffFold_claimed_no_write (root p : List Char) (evs : List Exchange) :
    ∀ st : SnifferState, p ∈ st.saving →
      countPath p (sniffFold root st evs).writes = countPath p st.writes := by
  induction evs with
  | nil => intro st _; rfl
  | cons ev rest ih =>
    intro st hp
    have h := sniffStep_claimed_keep root p st ev hp
    have ih2 := ih (sniffStep root st ev) h.1
    simp only [sniffFold, List.foldl_cons] at ih2 ⊢
    rw [ih2, h.2]

/-- Claim C3: per run, each normalized path receives at most one write
over any sequence of exchanges; an exchange whose normalized path is
already claimed leaves the sniffer state untouched (re-running storage
for a claimed path is a no-op); and for a nonempty batch of in-scope
exchanges that all normalize to the same path and whose first body
fetch succeeds, the run equals the state after the first exchange alone
(first writer wins) and exactly one artifact is written at that path. -/
theorem sniffer_write_once (root p : List Char) (evs : List Exchange) :
    countPath p (sniffRun root evs).writes ≤ 1
    ∧ (∀ st ev, root.isPrefixOf ev.url = true → cleanURL root ev.url ∈ st.saving →
        sniffStep root st ev = st)
    ∧ (∀ e rest, root.isPrefixOf e.url = true → cleanURL root e.url = p →
        e.body.isSome = true →
        (∀ x ∈ rest, root.isPrefixOf x.url = true ∧ cleanURL root x.url = p) →
        sniffRun root (e :: rest) = sniffStep root snifferInit e
        ∧ countPath p (sniffRun root (e :: rest)).writes = 1) := by
  refine ⟨?_, ?_, ?_⟩
  · exact sniffFold_inv root p evs snifferInit (by simp [snifferInit, countPath])
      (fun _ => by simp [snifferInit, countPath])
  · exact fun st ev hs hm => sniffStep_claimed_skip root st ev hs hm
  · intro e rest hs hp hb hall
    obtain ⟨b, hbe⟩ := Option.isSome_iff_exists.mp hb
    have hnm : cleanURL root e.url ∉ snifferInit.saving := by simp [snifferInit]
    have hstep : sniffStep root snifferInit e
        = { saving := setAdd snifferInit.saving (cleanURL root e.url),
            writes := snifferInit.writes
              ++ [(cleanURL root e.url, snifferPayload root (cleanURL root e.url) b)] } := by
      unfold sniffStep
      rw [if_pos hs, if_neg hnm, hbe]
    have hmem : p ∈ (sniffStep root snifferInit e).saving := by
      rw [hstep]
      simp [snifferInit, setAdd, hp]
    have hrun : sniffRun root (e :: rest) = sniffStep root snifferInit e := by
      unfold sniffRun
      have := sniffFold_claimed_noop root p (sniffStep root snifferInit e) hmem rest hall
      simpa [sniffFold, List.foldl_cons] using this
    refine ⟨hrun, ?_⟩
    rw [hrun, hstep]
    simp [snifferInit, countPath, hp]

def evCssA : Exchange := ⟨"https://site.example/style.css?v=1".toList, some ("cssA".toList)⟩

def evCssB : Exchange := ⟨"https://site.example/style.css?v=2".toList, some ("cssB".toList)⟩

theorem sniffer_write_once_witness :
    sniffRun rootList [evCssA, evCssB] = sniffStep rootList snifferInit evCssA
    ∧ countPath ("style.css".toList) (sniffRun rootList [evCssA, evCssB]).writes = 1 :=
  (sniffer_write_once rootList ("style.css".toList) [evCssA, evCssB]).2.2 evCssA [evCssB]
    (by decide) (by decide) (by decide) (by decide)

/-- Claim C10: the sniffer claims the normalized path before fetching
the body: a failing exchange (body accessor throws) still adds the path
to the claimed set and writes nothing, the claim is not rolled back, and
once a path is in the claimed set no later exchange sequence ever adds a
write at that path. -/
theorem sniffer_claim_not_rolled_back (root p : List Char) (st : SnifferState)
    (evs : List Exchange) :
    (∀ ev, root.isPrefixOf ev.url = true → ev.body = none →
        cleanURL root ev.url ∉ st.saving →
        sniffStep root st ev = { st with saving := setAdd st.saving (cleanURL root ev.url) })
    ∧ (p ∈ st.saving →
        countPath p (sniffFold root st evs).writes = countPath p st.writes) := by
  constructor
  · intro ev hs hb hnm
    unfold sniffStep
    rw [if_pos hs, if_neg hnm, hb]
  · intro hp
    exact sniffFold_claimed_no_write root p evs st hp

def evJsFail : Exchange := ⟨"https://site.example/app.js".toList, none⟩

def evJsOk : Exchange := ⟨"https://site.example/app.js".toList, some ("jscode".toList)⟩

def stClaimedJs : SnifferState := ⟨[ "app.js".toList], []⟩

theorem sniffer_claim_not_rolled_back_witness :
    sniffStep rootList snifferInit evJsFail
      = { snifferInit with saving := setAdd snifferInit.saving (cleanURL rootList evJsFail.url) }
    ∧ countPath ("app.js".toList) (sniffFold rootList stClaimedJs [evJsOk]).writes
      = countPath ("app.js".toList) stClaimedJs.writes :=
  ⟨(sniffer_claim_not_rolled_back rootList ("app.js".toList) snifferInit [evJsOk]).1 evJsFail
      (by decide) rfl (by decide),
   (sniffer_claim_not_rolled_back rootList ("app.js".toList) stClaimedJs [evJsOk]).2 (by decide)⟩

/-! ### The crawl workers (src/webrcv.js lines 113-151)

A fixed pool of workers shares `queued` and `visited`.  JS is
cooperatively scheduled: everything between two awaits runs atomically.
The block from `const url = [...queued][0]` through `visited.add(url)`
contains no await, so claiming a URL is one atomic step; the render then
resolves later (the scheduler may interleave other workers), and its
outcome — the rendered document with its extracted links, or any thrown
error — is applied in a second atomic step.  `fetchLog` records every
fetch attempt (`page.goto`). -/

inductive Outcome
  | ok (html : List Char) (links : List (List Char))
  | fail
deriving DecidableEq

inductive WStat
  | idle
  | fetching (url : List Char)
deriving DecidableEq

structure Sys where
  queued : List (List Char)
  visited : List (List Char)
  fetchLog : List (List Char)
  stored : List (List Char × List Char)
  workers : List WStat
deriving DecidableEq

def sysInit (seeds : List (List Char)) (n : Nat) : Sys :=
  ⟨seeds, [], [], [], List.replicate n WStat.idle⟩

/-- A scheduler decision: which worker performs its next atomic step,
and (for a resolving render) the outcome the environment produced. -/
inductive Dir
  | claim (w : Nat)
  | finish (w : Nat) (o : Outcome)

/-- The filter of `extractLinks`: same-origin anchors without
fragments. -/
def linkFilter (root : List Char) (links : List (List Char)) : List (List Char) :=
  links.filter (fun l => root.isPrefixOf l && !(l.contains '#'))

def sysStep (root : List Char) (st : Sys) : Dir → Sys
  | Dir.claim w =>
    match st.workers[w]? with
    | some WStat.idle =>
      match st.queued with
      | [] => st
      | url :: rest =>
        if url ∈ st.visited then { st with queued := rest }
        else
          { st with queued := rest,
                    visited := setAdd st.visited url,
                    fetchLog := st.fetchLog ++ [url],
                    workers := st.workers.set w (WStat.fetching url) }
    | _ => st
  | Dir.finish w o =>
    match st.workers[w]? with
    | some (WStat.fetching url) =>
      match o with
      | Outcome.fail =>
          { st with queued := setAdd st.queued url,
                    workers := st.workers.set w WStat.idle }
      | Outcome.ok html links =>
          { st with stored := st.stored ++ [(cleanURL root url, rewriteHTML root html)],
                    queued := (linkFilter root links).foldl
                      (fun q l => if l ∈ st.visited then q else setAdd q l) st.queued,
                    workers := st.workers.set w WStat.idle }
    | _ => st

def sysRun (root : List Char) (dirs : List Dir) (st : Sys) : Sys :=
  dirs.foldl (sysStep root) st

/-- Number of fetch attempts recorded for a given URL. -/
def countOcc (u : List Char) : List (List Char) → Nat
  | [] => 0
  | x :: rest => (if x = u then 1 else 0) + countOcc u rest

theorem countOcc_append (u : List Char) (l m : List (List Char)) :
    countOcc u (l ++ m) = countOcc u l + countOcc u m := by
  induction l with
  | nil => simp [countOcc]
  | cons x rest ih => simp [countOcc, ih]; omega

def uPage : List Char := "https://site.example/page".toList

/-- Claim C1 (code bug trace): one worker, one seeded URL whose render
fails.  After the failure the URL is back in `queued` (the catch block
re-adds it), but the subsequent pops discard it through the
visited-set guard, so the frontier drains with exactly ONE fetch
attempt on record, nothing stored, and the worker back to idle: the
retry announced by the source's catch block never re-attempts the
fetch. -/
theorem retry_never_refetched :
    (sysRun rootList [Dir.claim 0, Dir.finish 0 Outcome.fail] (sysInit [uPage] 1)).queued
      = [uPage]
    ∧ (sysRun rootList [Dir.claim 0, Dir.finish 0 Outcome.fail, Dir.claim 0, Dir.claim 0]
        (sysInit [uPage] 1)).fetchLog = [uPage]
    ∧ (sysRun rootList [Dir.claim 0, Dir.finish 0 Outcome.fail, Dir.claim 0, Dir.claim 0]
        (sysInit [uPage] 1)).stored = []
    ∧ (sysRun rootList [Dir.claim 0, Dir.finish 0 Outcome.fail, Dir.claim 0, Dir.claim 0]
        (sysInit [uPage] 1)).queued = []
    ∧ (sysRun rootList [Dir.claim 0, Dir.finish 0 Outcome.fail, Dir.claim 0, Dir.claim 0]
        (sysInit [uPage] 1)).workers = [WStat.idle] := by
  refine ⟨by decide, by decide, by decide, by decide, by decide⟩

def FetchInv (u : List Char) (st : Sys) : Prop :=
  countOcc u st.fetchLog ≤ 1 ∧ (u ∉ st.visited → countOcc u st.fetchLog = 0)

theorem sysStep_inv (root u : List Char) (st : Sys) (d : Dir) (h : FetchInv u st) :
    FetchInv u (sysStep root st d) := by
  obtain ⟨h1, h2⟩ := h
  cases d with
  | claim w =>
    cases hw : st.workers[w]? with
    | none => simp only [sysStep, hw]; exact ⟨h1, h2⟩
    | some ws =>
      cases ws with
      | fetching v => simp only [sysStep, hw]; exact ⟨h1, h2⟩
      | idle =>
        cases hq : st.queued with
        | nil => simp only [sysStep, hw, hq]; exact ⟨h1, h2⟩
        | cons url rest =>
          simp only [sysStep, hw, hq]
          by_cases hv : url ∈ st.visited
          · rw [if_pos hv]; exact ⟨h1, h2⟩
          · rw [if_neg hv]
            by_cases hu : url = u
            · subst hu
              have h0 : countOcc url st.fetchLog = 0 := h2 hv
              constructor
              · simp [countOcc_append, countOcc, h0]
              · intro hnv
                exact absurd ((mem_setAdd _ _ _).mpr (Or.inr rfl)) hnv
            · constructor
              · simpa [countOcc_append, countOcc, hu] using h1
              · intro hnv
                have hout : u ∉ st.visited :=
                  fun hin => hnv ((mem_setAdd _ _ _).mpr (Or.inl hin))
                simp [countOcc_append, countOcc, hu, h2 hout]
  | finish w o =>
    cases hw : st.workers[w]? with
    | none => simp only [sysStep, hw]; exact ⟨h1, h2⟩
    | some ws =>
      cases ws with
      | idle => simp only [sysStep, hw]; exact ⟨h1, h2⟩
      | fetching url =>
        cases o with
        | fail => simp only [sysStep, hw]; exact ⟨h1, h2⟩
        | ok html links => simp only [sysStep, hw]; exact ⟨h1, h2⟩

theorem sysRun_inv (root u : List Char) (dirs : List Dir) :
    ∀ st : Sys, FetchInv u st → FetchInv u (sysRun root dirs st) := by
  induction dirs with
  | nil => intro st h; exact h
  | cons d rest ih =>
    intro st h
    have := ih (sysStep root st d) (sysStep_inv root u st d h)
    simpa [sysRun, List.foldl_cons] using this

theorem enqueue_no_visited (u : List Char) (visited : List (List Char))
    (links : List (List Char)) :
    ∀ q : List (List Char), u ∈ visited → u ∉ q →
      u ∉ links.foldl (fun acc l => if l ∈ visited then acc else setAdd acc l) q := by
  induction links with
  | nil => intro q _ hq; exact hq
  | cons l ls ih =>
    intro q hu hq
    simp only [List.foldl_cons]
    by_cases hl : l ∈ visited
    · rw [if_pos hl]; exact ih q hu hq
    · rw [if_neg hl]
      refine ih (setAdd q l) hu ?_
      intro hin
      rcases (mem_setAdd _ _ _).mp hin with h | h
      · exact hq h
      · exact hl (h ▸ hu)

/-- Claim C2: over any interleaving of worker steps from any initial
seeding, each distinct URL is fetched at most once (even counting the
failure-retry path, which never leads to a second fetch); and once a
URL is in `visited`, a link-discovery step never re-enqueues it. -/
theorem fetch_at_most_once (root u : List Char) (seeds : List (List Char)) (n : Nat)
    (dirs : List Dir) :
    countOcc u (sysRun root dirs (sysInit seeds n)).fetchLog ≤ 1
    ∧ (∀ st w html links, u ∈ st.visited → u ∉ st.queued →
        u ∉ (sysStep root st (Dir.finish w (Outcome.ok html links))).queued) := by
  constructor
  · have hinit : FetchInv u (sysInit seeds n) := by
      constructor
      · simp [sysInit, countOcc]
      · intro _; simp [sysInit, countOcc]
    exact (sysRun_inv root u dirs (sysInit seeds n) hinit).1
  · intro st w html links hu hq
    cases hw : st.workers[w]? with
    | none => simp only [sysStep, hw]; exact hq
    | some ws =>
      cases ws with
      | idle => simp only [sysStep, hw]; exact hq
      | fetching url =>
        simp only [sysStep, hw]
        exact enqueue_no_visited u st.visited (linkFilter root links) st.queued hu hq

def stVisited : Sys := ⟨[], [uPage], [uPage], [], [WStat.fetching uPage]⟩

theorem fetch_at_most_once_witness :
    countOcc uPage (sysRun rootList [Dir.claim 0, Dir.claim 1]
      (sysInit [uPage] 2)).fetchLog ≤ 1
    ∧ uPage ∉ (sysStep rootList stVisited (Dir.finish 0 (Outcome.ok [] [uPage]))).queued :=
  ⟨(fetch_at_most_once rootList uPage [uPage] 2 [Dir.claim 0, Dir.claim 1]).1,
   (fetch_at_most_once rootList uPage [uPage] 2 [Dir.claim 0, Dir.claim 1]).2 stVisited 0 []
     [uPage] (by decide) (by decide)⟩

/-! ### The sitemap seeder (src/webrcv.js lines 154-169)

The regex `/<loc>(.*?)<\/loc>/g` scans left to right; at a matching
`<loc>` the lazy group captures the shortest stretch of
non-line-terminator characters followed by `</loc>`, and scanning
resumes after the match; at a failing position the scan advances one
character.  The HTTP side is abstracted to a result: a successful
response with a body, a non-ok response, or a thrown fetch error (the
latter two leave the queue untouched). -/

def locOpen : List Char := "<loc>".toList

def locClose : List Char := "</loc>".toList

def takeUntilClose : List Char → Option (List Char × List Char)
  | [] => none
  | c :: rest =>
    if locClose.isPrefixOf (c :: rest) then some ([], (c :: rest).drop locClose.length)
    else if c = '\n' ∨ c = '\r' then none
    else
      match takeUntilClose rest with
      | none => none
      | some (content, after) => some (c :: content, after)

def extractLocsAux : Nat → List Char → List (List Char)
  | 0, _ => []
  | _, [] => []
  | fuel + 1, c :: rest =>
    if locOpen.isPrefixOf (c :: rest) then
      match takeUntilClose ((c :: rest).drop locOpen.length) with
      | some (content, after) => content :: extractLocsAux fuel after
      | none => extractLocsAux fuel rest
    else extractLocsAux fuel rest

def extractLocs (s : List Char) : List (List Char) :=
  extractLocsAux s.length s

inductive SitemapResult
  | ok (body : List Char)
  | notOk
  | failed

def loadSitemap (res : SitemapResult) (queued : List (List Char)) : List (List Char) :=
  match res with
  | SitemapResult.ok body => (extractLocs body).foldl setAdd queued
  | SitemapResult.notOk => queued
  | SitemapResult.failed => queued

def sitemapDocA : List Char :=
  ("<urlset><url><loc>https://site.example/p1</loc></url>"
    ++ "<url><loc>https://site.example/p2</loc></url>"
    ++ "<url><loc>https://site.example/p3</loc></url></urlset>").toList

def sitemapDocB : List Char :=
  ("<urlset><loc>https://site.example</loc><loc>https://site.example/p1</loc>"
    ++ "<loc>https://site.example/p2</loc></urlset>").toList

set_option maxRecDepth 8192 in
/-- Claim C9: a successfully fetched sitemap with three `<loc>` entries
enqueues exactly those three URLs (document A: three new URLs extend
the seeded queue by three; document B: one entry duplicates the seed
and collapses by set semantics), while a non-ok response or a failed
fetch leaves the pending queue exactly as it was. -/
theorem loadSitemap_seeds_three :
    extractLocs sitemapDocA
      = ["https://site.example/p1".toList, "https://site.example/p2".toList,
         "https://site.example/p3".toList]
    ∧ loadSitemap (SitemapResult.ok sitemapDocA) [rootList]
      = [rootList, "https://site.example/p1".toList, "https://site.example/p2".toList,
         "https://site.example/p3".toList]
    ∧ loadSitemap (SitemapResult.ok sitemapDocB) [rootList]
      = [rootList, "https://site.example/p1".toList, "https://site.example/p2".toList]
    ∧ (∀ q, loadSitemap SitemapResult.notOk q = q)
    ∧ (∀ q, loadSitemap SitemapResult.failed q = q) := by
  refine ⟨by decide, by decide, by decide, fun q => rfl, fun q => rfl⟩

end Webrcv
